import Mathlib

/-!
Formal model of `intuition/finance.py` (financial time-series analytics).

Conventions of the shallow embedding:

* A numpy / pandas 1-d array of floats is modelled as a `List ℚ` (for the
  computations whose claims need decidable evaluation) or a `List ℝ`
  (for the computations that genuinely use transcendental functions:
  `np.exp`, `np.sqrt`).
* A Python call that raises (IndexError from an out-of-range scalar index,
  ValueError from `np.convolve` on an empty operand, ZeroDivisionError from
  `idx % 0`) is modelled as `Option.none`; a normal result is `some`.
* A pandas NaN entry (produced by `Series.shift`) is modelled as `none`
  inside a `List (Option ℚ)`; `Series.cumprod` has pandas' `skipna=True`
  semantics: NaN entries stay NaN in place and do not enter the running
  product.
* numpy float scalar division by zero does not raise: it yields ±inf or
  NaN with only a runtime warning.  Where a claim depends on this
  (`qstk_get_sharpe_ratio`), the result type `NpVal` carries explicit
  `pinf` / `ninf` / `nan` values; exact arithmetic is real-valued there.
* Rational division by zero in `ℚ` is total with `x / 0 = 0`; it is only
  exercised by the RSI `up/down` ratio when `down = 0`, a case the claims
  either exclude or for which only the membership of the result in
  `[0, 100]` matters.
-/

/-- Kind selector of `moving_average` (the Python `type` keyword:
`'simple'` or `'exponential'`). -/
inductive MAKind where
  | simple
  | exponential
deriving DecidableEq

/-- Kind selector of `returns` / `average_returns` (the Python `type`
keyword: `'net'` or `'gross'`). -/
inductive RetKind where
  | net
  | gross
deriving DecidableEq

section ConvolutionModel

variable {α : Type} [Field α]

/-- Entry `n` of numpy's full convolution `np.convolve(a, v, mode='full')`:
`conv[n] = Σ_m a[m] * v[n-m]`, with zero padding outside either operand
(indices `m > n` contribute nothing because `v` is indexed at `n - m ≥ 0`;
`getD` returns `0` outside the physical bounds, matching the padding). -/
def convEntry (a v : List α) (n : ℕ) : α :=
  ∑ m ∈ Finset.range (n + 1), a.getD m 0 * v.getD (n - m) 0

/-- Value list of `np.convolve(a, v, mode='full')`, of length
`len(a) + len(v) - 1`. -/
def convList (a v : List α) : List α :=
  (List.range (a.length + v.length - 1)).map (convEntry a v)

/-- Model of `np.convolve(a, v, mode='full')`.  numpy raises `ValueError`
when either operand is empty; that failure is `none`. -/
def np_convolve (a v : List α) : Option (List α) :=
  if a.length = 0 ∨ v.length = 0 then none else some (convList a v)

/-- Model of the in-place normalisation `weights /= weights.sum()`. -/
def normalizeW (w : List α) : List α :=
  w.map (fun x => x / w.sum)

/-- Body of `moving_average` once the raw weight kernel `w` is chosen:
normalise the kernel, convolve, truncate to the input length
(`[:len(data)]`), then flat-fill the warm-up region
(`mavg[:periods] = mavg[periods]`).  The scalar read `mavg[periods]`
raises `IndexError` when `periods ≥ len(mavg)`; that failure is `none`. -/
def maBody (data w : List α) (periods : ℕ) : Option (List α) :=
  (np_convolve data (normalizeW w)).bind fun c =>
    ((c.take data.length)[periods]?).map fun v =>
      List.replicate periods v ++ (c.take data.length).drop periods

end ConvolutionModel

/-- Entry `k` of `np.linspace(-1., 0., p)`: the value `-1 + k/(p-1)`.
For `p = 1` numpy returns the single point `[-1.]`, which the total
division `0 / 0 = 0` of `ℝ` reproduces. -/
noncomputable def emaLin (p k : ℕ) : ℝ :=
  -1 + (k : ℝ) / ((p : ℝ) - 1)

/-- Raw (unnormalised) weight kernel of `moving_average`:
`np.ones(periods)` for the simple kind, `np.exp(np.linspace(-1., 0., periods))`
for the exponential kind. -/
noncomputable def maKernel : MAKind → ℕ → List ℝ
  | MAKind.simple, p => List.replicate p 1
  | MAKind.exponential, p => (List.range p).map fun k => Real.exp (emaLin p k)

/-- Model of `moving_average(data, periods, type)` from
`intuition/finance.py`. -/
noncomputable def moving_average (data : List ℝ) (periods : ℕ) (kind : MAKind) :
    Option (List ℝ) :=
  maBody data (maKernel kind periods) periods

/-- Model of `moving_average_convergence(data, nslow, nfast)`:
`emaslow`, `emafast`, then the elementwise difference
`emafast - emaslow`; any exception of either moving average
propagates. -/
noncomputable def moving_average_convergence (data : List ℝ) (nslow nfast : ℕ) :
    Option (List ℝ × List ℝ × List ℝ) :=
  (moving_average data nslow MAKind.exponential).bind fun emaslow =>
    (moving_average data nfast MAKind.exponential).map fun emafast =>
      (emaslow, emafast, List.zipWith (fun a b => a - b) emafast emaslow)

/-- Model of `np.diff(prices)`: adjacent differences, one entry shorter
than the input. -/
def rsDiff (prices : List ℚ) : List ℚ :=
  List.zipWith (fun b a => b - a) (prices.drop 1) prices

/-- Seed `up` state of `relative_strength`: the source computes
`seed = deltas[:periods + 1]` and then `up = seed[seed >= 0].sum() / periods`. -/
def rsSeedUp (prices : List ℚ) (periods : ℕ) : ℚ :=
  (((rsDiff prices).take (periods + 1)).filter (fun d => decide (0 ≤ d))).sum
    / (periods : ℚ)

/-- Seed `down` state of `relative_strength`: the source computes
`down = -seed[seed < 0].sum() / periods` over the same
`seed = deltas[:periods + 1]`. -/
def rsSeedDown (prices : List ℚ) (periods : ℕ) : ℚ :=
  -((((rsDiff prices).take (periods + 1)).filter (fun d => decide (d < 0))).sum)
    / (periods : ℚ)

/-- Modelled from the spec sentence of claim C2 (for comparison with the
source): average of the positive differences among the first `periods`
differences, divided by `periods`. -/
def specSeedUp (prices : List ℚ) (periods : ℕ) : ℚ :=
  (((rsDiff prices).take periods).filter (fun d => decide (0 < d))).sum
    / (periods : ℚ)

/-- Modelled from the spec sentence of claim C2 (for comparison with the
source): average magnitude of the negative differences among the first
`periods` differences, divided by `periods`. -/
def specSeedDown (prices : List ℚ) (periods : ℕ) : ℚ :=
  ((((rsDiff prices).take periods).filter (fun d => decide (d < 0))).map
    (fun d => -d)).sum / (periods : ℚ)

/-- RSI output value for a smoothing state: `100 - 100/(1 + up/down)`. -/
def rsVal (up down : ℚ) : ℚ :=
  100 - 100 / (1 + up / down)

/-- Recursive tail of `relative_strength`: one output value per delta,
threading the Wilder-smoothed `up`/`down` state exactly as the source
loop does (`up = (up*(periods-1) + upval)/periods`, symmetrically for
`down`). -/
def rsTail (periods : ℕ) : ℚ → ℚ → List ℚ → List ℚ
  | _, _, [] => []
  | up, down, d :: ds =>
      let upval : ℚ := if 0 < d then d else 0
      let downval : ℚ := if 0 < d then 0 else -d
      let up2 := (up * ((periods : ℚ) - 1) + upval) / (periods : ℚ)
      let down2 := (down * ((periods : ℚ) - 1) + downval) / (periods : ℚ)
      rsVal up2 down2 :: rsTail periods up2 down2 ds

/-- Model of `relative_strength(prices, periods)` for `periods ≥ 1`
(the source loop `for i in range(periods, len(prices))` reads
`deltas[i - 1]`, i.e. the deltas from position `periods - 1` on; the
first `min periods (len prices)` output slots hold the seed value,
from `rsi[:periods] = 100. - 100./(1.+ratio)`). -/
def relative_strength (prices : List ℚ) (periods : ℕ) : List ℚ :=
  List.replicate (min periods prices.length)
      (rsVal (rsSeedUp prices periods) (rsSeedDown prices periods))
    ++ rsTail periods (rsSeedUp prices periods) (rsSeedDown prices periods)
      ((rsDiff prices).drop (periods - 1))

/-- Relative offset of `returns`: `0 if returns_type == 'net' else 1`. -/
def retRel : RetKind → ℚ
  | RetKind.net => 0
  | RetKind.gross => 1

/-- Relative offset of `average_returns`:
`0 if average_type == 'net' else -1`. -/
def avgRel : RetKind → ℚ
  | RetKind.net => 0
  | RetKind.gross => -1

/-- Model of the pandas expression `ts / ts.shift(period) - 1 + relative`:
position `i` is NaN (= `none`) while `i < period` (the shifted series has
no value there) and `ts[i]/ts[i-period] - 1 + relative` otherwise. -/
def shiftRets (ts : List ℚ) (rel : ℚ) (period : ℕ) : List (Option ℚ) :=
  (List.range ts.length).map fun i =>
    if period ≤ i then some (ts.getD i 0 / ts.getD (i - period) 0 - 1 + rel)
    else none

/-- Accumulator pass of pandas `Series.cumprod()` with its default
`skipna=True`: a NaN entry stays NaN and leaves the accumulator
untouched; a value entry multiplies into the accumulator. -/
def cumprodGo (acc : ℚ) : List (Option ℚ) → List (Option ℚ)
  | [] => []
  | none :: rest => none :: cumprodGo acc rest
  | some x :: rest => some (acc * x) :: cumprodGo (acc * x) rest

/-- Model of pandas `Series.cumprod()` (skipna). -/
def cumprod (l : List (Option ℚ)) : List (Option ℚ) :=
  cumprodGo 1 l

/-- Model of the periodic mode of `returns(ts, ...)` (no concrete `start`
timestamp): `rets_df = ts / ts.shift(period) - 1 + relative`, then
`rets_df.cumprod()` when cumulative, else `rets_df[1:]`. -/
def returns (ts : List ℚ) (kind : RetKind) (period : ℕ) (cumulative : Bool) :
    List (Option ℚ) :=
  if cumulative then cumprod (shiftRets ts (retRel kind) period)
  else (shiftRets ts (retRel kind) period).drop 1

/-- Model of `average_returns(ts, type, period)`: accumulator `1`,
multiplied by `(1 + ts[idx] + relative)` at every index that is a
multiple of `period`, result accumulator minus one.  Python raises
`ZeroDivisionError` at `idx % 0` as soon as the loop body runs, hence
`none` when `period = 0` and the series is nonempty. -/
def average_returns (ts : List ℚ) (kind : RetKind) (period : ℕ) : Option ℚ :=
  if 0 < ts.length ∧ period = 0 then none
  else some
    ((List.range ts.length).foldl
      (fun acc idx =>
        if idx % period = 0 then acc * (1 + ts.getD idx 0 + avgRel kind)
        else acc)
      1 - 1)

/-- Value universe of a numpy float scalar: a finite real, a signed
infinity, or NaN. -/
inductive NpVal where
  | fin (x : ℝ)
  | pinf
  | ninf
  | nan

/-- numpy float scalar division: by a nonzero denominator it is ordinary
division; by zero it silently yields `inf`, `-inf` or `nan` according to
the sign of the numerator (a RuntimeWarning, never an exception). -/
noncomputable def npDiv (a b : ℝ) : NpVal :=
  if b = 0 then
    (if 0 < a then NpVal.pinf else if a < 0 then NpVal.ninf else NpVal.nan)
  else NpVal.fin (a / b)

/-- Model of `np.mean(rets, axis=0)`. -/
noncomputable def npMean (l : List ℝ) : ℝ :=
  l.sum / (l.length : ℝ)

/-- Model of `np.std(rets, axis=0)` (population standard deviation). -/
noncomputable def npStd (l : List ℝ) : ℝ :=
  Real.sqrt ((l.map (fun x => (x - npMean l) ^ 2)).sum / (l.length : ℝ))

/-- Model of `qstk_get_sharpe_ratio(rets, risk_free)` from the source:
`(mean * 252 - risk_free) / (std * sqrt(252))` under numpy float
division semantics. -/
noncomputable def qstk_get_sharpe (rets : List ℝ) (risk_free : ℝ) : NpVal :=
  npDiv (npMean rets * 252 - risk_free) (npStd rets * Real.sqrt 252)

/-! ### Helper lemmas -/

theorem filter_nonneg_sum_eq_filter_pos (l : List ℚ) :
    (l.filter (fun d => decide (0 ≤ d))).sum
      = (l.filter (fun d => decide (0 < d))).sum := by
  induction l with
  | nil => rfl
  | cons x t ih =>
    by_cases hx : 0 < x
    · have hx' : 0 ≤ x := le_of_lt hx
      simp [List.filter_cons, hx, hx', ih]
    · by_cases hx0 : 0 ≤ x
      · have hxz : x = 0 := le_antisymm (not_lt.mp hx) hx0
        simp [List.filter_cons, hx, hx0, hxz, ih]
      · simp [List.filter_cons, hx, hx0, ih]

theorem sum_map_neg_q (l : List ℚ) : (l.map (fun d => -d)).sum = -l.sum := by
  induction l with
  | nil => simp
  | cons x t ih => simp [ih]; ring

/-! ### Claim C2 -/

/-- Claim C2, counterexample: on `prices = [10, 11, 9, 20]` with
`periods = 2`, the seed `up` computed by the source (which slices
`deltas[:periods + 1]`, i.e. the first three differences `[1, -2, 11]`)
is `6`, not the value `1/2` that the claim's "first `periods`
differences" rule would give. -/
theorem counterexample_C2 :
    rsSeedUp [10, 11, 9, 20] 2 ≠ specSeedUp [10, 11, 9, 20] 2 := by
  have h1 : rsSeedUp [10, 11, 9, 20] 2 = 6 := by
    norm_num [rsSeedUp, rsDiff, List.filter]
  have h2 : specSeedUp [10, 11, 9, 20] 2 = 1 / 2 := by
    norm_num [specSeedUp, rsDiff, List.filter]
  rw [h1, h2]
  norm_num

/-- Claim C2, amended: the seed state of `relative_strength` is computed
over the first `periods + 1` price differences (the source slices
`deltas[:periods + 1]`), not the first `periods`: `up` is the sum of the
positive differences among those first `periods + 1` differences divided
by `periods`, and `down` is the sum of magnitudes of the negative ones
among them divided by `periods`. -/
theorem claim_C2 (prices : List ℚ) (periods : ℕ) :
    rsSeedUp prices periods
      = (((rsDiff prices).take (periods + 1)).filter
          (fun d => decide (0 < d))).sum / (periods : ℚ)
    ∧ rsSeedDown prices periods
      = ((((rsDiff prices).take (periods + 1)).filter
          (fun d => decide (d < 0))).map (fun d => -d)).sum / (periods : ℚ) := by
  constructor
  · unfold rsSeedUp
    rw [filter_nonneg_sum_eq_filter_pos]
  · unfold rsSeedDown
    rw [sum_map_neg_q, neg_div]

/-! ### Counterexamples for claims C3, C5, C8 -/

/-- Claim C3, counterexample: with `ts = [1, 2, 3, 4]`, `period = 2`,
`type = net`, `cumulative = False`, the source drops only `rets_df[1:]`
— one single entry — so the output has length 3, not the length
`len(ts) - period = 2` that "the first `period` entries are dropped"
would give; the NaN at position `1` of the shifted quotient is
retained. -/
theorem counterexample_C3 :
    (returns [1, 2, 3, 4] RetKind.net 2 false).length
      ≠ [(1 : ℚ), 2, 3, 4].length - 2 := by
  decide

/-- Claim C5, counterexample: with the default `type = net` (the claim
names no `type`, and the source default is net), the cumulative
period-1 series of `P = [100, 110, 121]` has `R[2] = 1/100` (the running
product of the net returns `1/10 * 1/10`), and `P[0] * R[2] = 1 ≠ 121 =
P[2]`: the round-trip fails. -/
theorem counterexample_C5 :
    (returns [100, 110, 121] RetKind.net 1 true)[2]? = some (some (1 / 100))
    ∧ (100 : ℚ) * (1 / 100) ≠ 121 := by
  constructor
  · norm_num [returns, shiftRets, retRel, cumprod, cumprodGo, List.range_succ]
  · norm_num

/-- Claim C8, counterexample: `returns(ts, period=0)` is not rejected:
on `ts = [1, 2]` the source computes `ts / ts.shift(0) - 1 = [0, 0]`,
drops the first entry and returns the series `[0]` — a full result from
a non-positive `period`, with no error. -/
theorem counterexample_C8 :
    returns [1, 2] RetKind.net 0 false = [some 0] := by
  norm_num [returns, shiftRets, retRel, List.range_succ]

theorem shiftRets_length (ts : List ℚ) (rel : ℚ) (period : ℕ) :
    (shiftRets ts rel period).length = ts.length := by
  simp [shiftRets]

theorem shiftRets_getElem (ts : List ℚ) (rel : ℚ) (period i : ℕ)
    (hi : i < ts.length) :
    (shiftRets ts rel period)[i]?
      = some (if period ≤ i
          then some (ts.getD i 0 / ts.getD (i - period) 0 - 1 + rel)
          else none) := by
  unfold shiftRets
  rw [List.getElem?_map, List.getElem?_range hi, Option.map_some']

theorem take_range'_one (s : ℕ) : ∀ (n m : ℕ),
    (List.range' s n).take m = List.range' s (min m n) := by
  intro n
  induction n generalizing s with
  | zero => intro m; simp
  | succ k ih =>
    intro m
    cases m with
    | zero => simp
    | succ m' =>
      rw [List.range'_succ, List.take_succ_cons, ih (s + 1) m',
        Nat.succ_min_succ, List.range'_succ]

theorem range'_succ_right (s n : ℕ) :
    List.range' s (n + 1) = List.range' s n ++ [s + n] := by
  have h := @List.range'_concat 1 s n
  simpa using h

theorem shiftRets_split (ts : List ℚ) (rel : ℚ) (period : ℕ)
    (h : period ≤ ts.length) :
    shiftRets ts rel period
      = List.replicate period none
        ++ (List.range' period (ts.length - period)).map
          (fun i => some (ts.getD i 0 / ts.getD (i - period) 0 - 1 + rel)) := by
  unfold shiftRets
  rw [List.range_eq_range']
  have hsum : List.range' 0 period ++ List.range' period (ts.length - period)
      = List.range' 0 ts.length := by
    have happ := List.range'_append 0 period (ts.length - period) 1
    simp only [one_mul, Nat.zero_add] at happ
    rw [happ]
    congr 1
    omega
  rw [← hsum, List.map_append]
  congr 1
  · rw [List.eq_replicate_iff]
    refine ⟨by simp, ?_⟩
    intro b hb
    obtain ⟨x, hx, rfl⟩ := List.mem_map.mp hb
    have hx2 := List.mem_range'_1.mp hx
    rw [if_neg]
    omega
  · apply List.map_congr_left
    intro x hx
    have hx2 := List.mem_range'_1.mp hx
    rw [if_pos]
    omega

theorem cumprodGo_length (acc : ℚ) (l : List (Option ℚ)) :
    (cumprodGo acc l).length = l.length := by
  induction l generalizing acc with
  | nil => rfl
  | cons x t ih =>
    cases x with
    | none => simp [cumprodGo, ih]
    | some v => simp [cumprodGo, ih]

theorem cumprodGo_replicate_none (n : ℕ) (acc : ℚ) (l : List (Option ℚ)) :
    cumprodGo acc (List.replicate n none ++ l)
      = List.replicate n none ++ cumprodGo acc l := by
  induction n with
  | zero => simp
  | succ k ih => simp [List.replicate_succ, cumprodGo, ih]

theorem cumprodGo_map_some (l : List ℚ) : ∀ (acc : ℚ) (i : ℕ),
    i < l.length →
    (cumprodGo acc (l.map some))[i]? = some (some (acc * (l.take (i + 1)).prod)) := by
  induction l with
  | nil => intro acc i hi; simp at hi
  | cons x t ih =>
    intro acc i hi
    cases i with
    | zero => simp [cumprodGo]
    | succ i' =>
      have hi' : i' < t.length := by simpa using hi
      simp only [List.map_cons, cumprodGo, List.getElem?_cons_succ,
        List.take_succ_cons, List.prod_cons]
      rw [ih (acc * x) i' hi']
      congr 2
      ring

/-- Claim C3, amended: in periodic mode, `ret[i] = ts[i]/ts[i-period] - 1`
(plus `1` when `type = gross`); when `cumulative = False` exactly ONE
leading entry is dropped (`rets_df[1:]`), regardless of `period`, so the
output has length `len(ts) - 1` and positions `1 .. period-1` of the
quotient series survive as undefined (NaN) entries; when
`cumulative = True` the full-length series is returned, its first
`period` entries still undefined, and entry `i ≥ period` is the running
product of the per-period return values from position `period` through
`i`. -/
theorem claim_C3 (ts : List ℚ) (k : RetKind) (period i j : ℕ)
    (hp : 1 ≤ period) (hpi : period ≤ i) (hi : i < ts.length) (hj : j < period) :
    (returns ts k period false).length = ts.length - 1
    ∧ (returns ts k period false)[i - 1]?
        = some (some (ts.getD i 0 / ts.getD (i - period) 0 - 1 + retRel k))
    ∧ (returns ts k period true).length = ts.length
    ∧ (returns ts k period true)[j]? = some none
    ∧ (returns ts k period true)[i]?
        = some (some (((List.range' period (i - period + 1)).map
            (fun m => ts.getD m 0 / ts.getD (m - period) 0 - 1 + retRel k)).prod)) := by
  have hple : period ≤ ts.length := le_of_lt (lt_of_le_of_lt hpi hi)
  have hfalse : returns ts k period false = (shiftRets ts (retRel k) period).drop 1 := by
    simp [returns]
  have htrue : returns ts k period true = cumprod (shiftRets ts (retRel k) period) := by
    simp [returns]
  have hsplit := shiftRets_split ts (retRel k) period hple
  have hmapmap : (List.range' period (ts.length - period)).map
      (fun m => some (ts.getD m 0 / ts.getD (m - period) 0 - 1 + retRel k))
      = ((List.range' period (ts.length - period)).map
        (fun m => ts.getD m 0 / ts.getD (m - period) 0 - 1 + retRel k)).map some := by
    rw [List.map_map]
    rfl
  refine ⟨?_, ?_, ?_, ?_, ?_⟩
  · rw [hfalse, List.length_drop, shiftRets_length]
  · rw [hfalse, List.getElem?_drop]
    have hidx : 1 + (i - 1) = i := by omega
    rw [hidx, shiftRets_getElem ts (retRel k) period i hi, if_pos hpi]
  · rw [htrue, cumprod, cumprodGo_length, shiftRets_length]
  · rw [htrue, cumprod, hsplit, hmapmap, cumprodGo_replicate_none]
    rw [List.getElem?_append_left (by simpa using hj), List.getElem?_replicate,
      if_pos hj]
  · rw [htrue, cumprod, hsplit, hmapmap, cumprodGo_replicate_none]
    rw [List.getElem?_append_right (by simpa using hpi)]
    simp only [List.length_replicate]
    have hlen : i - period
        < ((List.range' period (ts.length - period)).map
            (fun m => ts.getD m 0 / ts.getD (m - period) 0 - 1 + retRel k)).length := by
      simp only [List.length_map, List.length_range']
      omega
    rw [cumprodGo_map_some _ 1 (i - period) hlen, one_mul]
    rw [← List.map_take, take_range'_one]
    have hmin : min (i - period + 1) (ts.length - period) = i - period + 1 := by
      omega
    rw [hmin]

/-- Claim C3, witness: the amended theorem applied at
`ts = [1, 2, 3, 4]`, `period = 2`, `i = 3`, `j = 1`, `type = net`. -/
theorem claim_C3_witness :
    1 ≤ 2 ∧ 2 ≤ 3 ∧ 3 < [(1 : ℚ), 2, 3, 4].length ∧ 1 < 2
    ∧ ((returns [1, 2, 3, 4] RetKind.net 2 false).length
        = [(1 : ℚ), 2, 3, 4].length - 1
      ∧ (returns [1, 2, 3, 4] RetKind.net 2 false)[3 - 1]?
          = some (some ([(1 : ℚ), 2, 3, 4].getD 3 0
              / [(1 : ℚ), 2, 3, 4].getD (3 - 2) 0 - 1 + retRel RetKind.net))
      ∧ (returns [1, 2, 3, 4] RetKind.net 2 true).length = [(1 : ℚ), 2, 3, 4].length
      ∧ (returns [1, 2, 3, 4] RetKind.net 2 true)[1]? = some none
      ∧ (returns [1, 2, 3, 4] RetKind.net 2 true)[3]?
          = some (some (((List.range' 2 (3 - 2 + 1)).map
              (fun m => [(1 : ℚ), 2, 3, 4].getD m 0
                / [(1 : ℚ), 2, 3, 4].getD (m - 2) 0 - 1 + retRel RetKind.net)).prod))) :=
  ⟨by decide, by decide, by decide, by decide,
    claim_C3 [1, 2, 3, 4] RetKind.net 2 3 1 (by decide) (by decide) (by decide)
      (by decide)⟩

theorem getD_mem_q (P : List ℚ) (n : ℕ) (h : n < P.length) : P.getD n 0 ∈ P := by
  rw [List.getD_eq_getElem P 0 h]
  exact List.getElem_mem h

theorem teleProd (P : List ℚ) (h0 : ∀ x ∈ P, x ≠ 0) : ∀ i : ℕ,
    1 ≤ i → i < P.length →
    ((List.range' 1 i).map (fun m => P.getD m 0 / P.getD (m - 1) 0)).prod
      = P.getD i 0 / P.getD 0 0 := by
  intro i
  induction i with
  | zero => omega
  | succ n ih =>
    intro _ hlen
    by_cases hn : n = 0
    · subst hn
      simp
    · have hn1 : 1 ≤ n := by omega
      have hnlen : n < P.length := by omega
      rw [range'_succ_right, List.map_append, List.prod_append,
        ih hn1 hnlen]
      have h1n : 1 + n - 1 = n := by omega
      simp only [List.map_cons, List.map_nil, List.prod_cons, List.prod_nil,
        h1n, mul_one]
      have ha : P.getD n 0 ≠ 0 := h0 _ (getD_mem_q P n hnlen)
      have hb : P.getD 0 0 ≠ 0 := h0 _ (getD_mem_q P 0 (by omega))
      have hc : 1 + n = n + 1 := by omega
      rw [hc, div_mul_div_comm, mul_comm (P.getD 0 0) (P.getD n 0),
        mul_div_mul_left _ _ ha]


theorem cumRets_getElem (ts : List ℚ) (rel : ℚ) (period i : ℕ)
    (hp : period ≤ i) (hi : i < ts.length) :
    (cumprod (shiftRets ts rel period))[i]?
      = some (some (((List.range' period (i - period + 1)).map
          (fun m => ts.getD m 0 / ts.getD (m - period) 0 - 1 + rel)).prod)) := by
  have hple : period ≤ ts.length := le_of_lt (lt_of_le_of_lt hp hi)
  have hsplit := shiftRets_split ts rel period hple
  have hmapmap : (List.range' period (ts.length - period)).map
      (fun m => some (ts.getD m 0 / ts.getD (m - period) 0 - 1 + rel))
      = ((List.range' period (ts.length - period)).map
        (fun m => ts.getD m 0 / ts.getD (m - period) 0 - 1 + rel)).map some := by
    rw [List.map_map]
    rfl
  rw [cumprod, hsplit, hmapmap, cumprodGo_replicate_none]
  rw [List.getElem?_append_right (by simpa using hp)]
  simp only [List.length_replicate]
  have hlen : i - period
      < ((List.range' period (ts.length - period)).map
          (fun m => ts.getD m 0 / ts.getD (m - period) 0 - 1 + rel)).length := by
    simp only [List.length_map, List.length_range']
    omega
  rw [cumprodGo_map_some _ 1 (i - period) hlen, one_mul]
  rw [← List.map_take, take_range'_one]
  have hmin : min (i - period + 1) (ts.length - period) = i - period + 1 := by
    omega
  rw [hmin]

/-- Claim C5, amended: the round-trip holds for the GROSS cumulative
periodic return series (with the source's default `type = net` the claim
as stated is false — see the counterexample): for every price series `P`
with nonzero values and `R = returns(P, type=gross, period=1,
cumulative=True)`, entry `i ≥ 1` of `R` equals `P[i]/P[0]` and
`P[0] * R[i] = P[i]` exactly. -/
theorem claim_C5 (P : List ℚ) (h0 : ∀ x ∈ P, x ≠ 0) (i : ℕ)
    (h1 : 1 ≤ i) (hi : i < P.length) :
    (returns P RetKind.gross 1 true)[i]? = some (some (P.getD i 0 / P.getD 0 0))
    ∧ P.getD 0 0 * (P.getD i 0 / P.getD 0 0) = P.getD i 0 := by
  have hret : returns P RetKind.gross 1 true
      = cumprod (shiftRets P (retRel RetKind.gross) 1) := by
    simp [returns]
  have hentry := cumRets_getElem P (retRel RetKind.gross) 1 i h1 hi
  have hfun : (List.range' 1 (i - 1 + 1)).map
      (fun m => P.getD m 0 / P.getD (m - 1) 0 - 1 + retRel RetKind.gross)
      = (List.range' 1 (i - 1 + 1)).map (fun m => P.getD m 0 / P.getD (m - 1) 0) := by
    apply List.map_congr_left
    intro m _
    simp [retRel]
  have hidx : i - 1 + 1 = i := by omega
  rw [hfun, hidx, teleProd P h0 i h1 hi] at hentry
  have hb : P.getD 0 0 ≠ 0 := h0 _ (getD_mem_q P 0 (by omega))
  constructor
  · rw [hret]
    exact hentry
  · rw [← mul_div_assoc]
    exact mul_div_cancel_left₀ _ hb

/-- Claim C5, witness: the amended theorem applied at
`P = [100, 110, 121]`, `i = 2`; entry 2 of the gross cumulative series is
`121/100` and `100 * (121/100) = 121`. -/
theorem claim_C5_witness :
    (∀ x ∈ [(100 : ℚ), 110, 121], x ≠ 0) ∧ 1 ≤ 2 ∧ 2 < [(100 : ℚ), 110, 121].length
    ∧ ((returns [100, 110, 121] RetKind.gross 1 true)[2]?
        = some (some ([(100 : ℚ), 110, 121].getD 2 0 / [(100 : ℚ), 110, 121].getD 0 0))
      ∧ [(100 : ℚ), 110, 121].getD 0 0
          * ([(100 : ℚ), 110, 121].getD 2 0 / [(100 : ℚ), 110, 121].getD 0 0)
        = [(100 : ℚ), 110, 121].getD 2 0) :=
  ⟨by simp, by decide, by decide,
    claim_C5 [100, 110, 121] (by simp) 2 (by decide) (by decide)⟩

/-- Claim C8, amended: of the four functions, only `moving_average`
(empty weight kernel, `ValueError` in `np.convolve`) and, on nonempty
input, `average_returns` (`ZeroDivisionError` at `idx % 0`) fail on a
non-positive `periods`/`period`; neither failure is an immediate
parameter check, and `relative_strength` and `returns` perform no
validation at all and return ordinary results for `period = 0` (see the
counterexample). -/
theorem claim_C8 (data : List ℝ) (kind : MAKind) (ts : List ℚ) (k : RetKind)
    (h : ts ≠ []) :
    moving_average data 0 kind = none ∧ average_returns ts k 0 = none := by
  constructor
  · cases kind <;>
      simp [moving_average, maBody, np_convolve, maKernel, normalizeW]
  · have hlen : 0 < ts.length := List.length_pos.mpr h
    simp [average_returns, hlen]

/-- Claim C8, witness: the amended theorem applied at `data = [1]`,
`kind = simple`, `ts = [1]`, `type = net`. -/
theorem claim_C8_witness :
    [(1 : ℚ)] ≠ []
    ∧ (moving_average [(1 : ℝ)] 0 MAKind.simple = none
      ∧ average_returns [(1 : ℚ)] RetKind.net 0 = none) :=
  ⟨by decide, claim_C8 [(1 : ℝ)] MAKind.simple [(1 : ℚ)] RetKind.net (by decide)⟩

theorem foldl_if_filter_prod (p : ℕ → Prop) [DecidablePred p] (f : ℕ → ℚ) :
    ∀ (l : List ℕ) (a : ℚ),
    l.foldl (fun acc i => if p i then acc * f i else acc) a
      = a * ((l.filter (fun i => decide (p i))).map f).prod := by
  intro l
  induction l with
  | nil => intro a; simp
  | cons x t ih =>
    intro a
    by_cases hx : p x
    · simp only [List.foldl_cons, if_pos hx, List.filter_cons,
        decide_eq_true_eq, hx, if_true, List.map_cons, List.prod_cons, ih]
      ring
    · simp only [List.foldl_cons, if_neg hx, List.filter_cons,
        decide_eq_true_eq, hx, if_false, ih]

/-- Claim C10, confirmed: `average_returns` with `type = gross` uses the
relative offset `-1`, so each compounded factor collapses to the raw
series value `ts[idx]` at the stride-multiple indices, and the result is
the product of those raw values minus one; with `type = net` the factor
is `1 + ts[idx]`; `returns` instead implements gross by adding `+1`, so
its pointwise gross value is the bare quotient `ts[i]/ts[i-period]`. -/
theorem claim_C10 (ts : List ℚ) (period i : ℕ) (hp : 1 ≤ period)
    (hpi : period ≤ i) (hi : i < ts.length) :
    average_returns ts RetKind.gross period
      = some ((((List.range ts.length).filter
          (fun idx => decide (idx % period = 0))).map
            (fun idx => ts.getD idx 0)).prod - 1)
    ∧ average_returns ts RetKind.net period
      = some ((((List.range ts.length).filter
          (fun idx => decide (idx % period = 0))).map
            (fun idx => 1 + ts.getD idx 0)).prod - 1)
    ∧ retRel RetKind.gross = 1
    ∧ (returns ts RetKind.gross period false)[i - 1]?
        = some (some (ts.getD i 0 / ts.getD (i - period) 0)) := by
  have hcond : ¬(0 < ts.length ∧ period = 0) := by omega
  refine ⟨?_, ?_, rfl, ?_⟩
  · rw [average_returns, if_neg hcond,
      foldl_if_filter_prod (fun idx => idx % period = 0)
        (fun idx => 1 + ts.getD idx 0 + avgRel RetKind.gross), one_mul]
    have hmap : ((List.range ts.length).filter
        (fun idx => decide (idx % period = 0))).map
          (fun idx => 1 + ts.getD idx 0 + avgRel RetKind.gross)
        = ((List.range ts.length).filter
          (fun idx => decide (idx % period = 0))).map (fun idx => ts.getD idx 0) := by
      apply List.map_congr_left
      intro idx _
      simp only [avgRel]
      ring
    rw [hmap]
  · rw [average_returns, if_neg hcond,
      foldl_if_filter_prod (fun idx => idx % period = 0)
        (fun idx => 1 + ts.getD idx 0 + avgRel RetKind.net), one_mul]
    have hmap : ((List.range ts.length).filter
        (fun idx => decide (idx % period = 0))).map
          (fun idx => 1 + ts.getD idx 0 + avgRel RetKind.net)
        = ((List.range ts.length).filter
          (fun idx => decide (idx % period = 0))).map (fun idx => 1 + ts.getD idx 0) := by
      apply List.map_congr_left
      intro idx _
      simp only [avgRel]
      ring
    rw [hmap]
  · have hfalse : returns ts RetKind.gross period false
        = (shiftRets ts (retRel RetKind.gross) period).drop 1 := by
      simp [returns]
    rw [hfalse, List.getElem?_drop]
    have hidx : 1 + (i - 1) = i := by omega
    rw [hidx, shiftRets_getElem ts (retRel RetKind.gross) period i hi, if_pos hpi]
    have : ts.getD i 0 / ts.getD (i - period) 0 - 1 + retRel RetKind.gross
        = ts.getD i 0 / ts.getD (i - period) 0 := by
      simp [retRel]
    rw [this]

/-- Claim C10, witness: the theorem applied at `ts = [1, 2, 3]`,
`period = 2`, `i = 2`. -/
theorem claim_C10_witness :
    1 ≤ 2 ∧ 2 ≤ 2 ∧ 2 < [(1 : ℚ), 2, 3].length
    ∧ (average_returns [1, 2, 3] RetKind.gross 2
        = some ((((List.range [(1 : ℚ), 2, 3].length).filter
            (fun idx => decide (idx % 2 = 0))).map
              (fun idx => [(1 : ℚ), 2, 3].getD idx 0)).prod - 1)
      ∧ average_returns [1, 2, 3] RetKind.net 2
        = some ((((List.range [(1 : ℚ), 2, 3].length).filter
            (fun idx => decide (idx % 2 = 0))).map
              (fun idx => 1 + [(1 : ℚ), 2, 3].getD idx 0)).prod - 1)
      ∧ retRel RetKind.gross = 1
      ∧ (returns [1, 2, 3] RetKind.gross 2 false)[2 - 1]?
          = some (some ([(1 : ℚ), 2, 3].getD 2 0 / [(1 : ℚ), 2, 3].getD (2 - 2) 0))) :=
  ⟨by decide, by decide, by decide,
    claim_C10 [1, 2, 3] 2 2 (by decide) (by decide) (by decide)⟩

theorem rsSeedUp_nonneg (prices : List ℚ) (periods : ℕ) :
    0 ≤ rsSeedUp prices periods := by
  unfold rsSeedUp
  apply div_nonneg _ (Nat.cast_nonneg periods)
  apply List.sum_nonneg
  intro x hx
  exact of_decide_eq_true (List.mem_filter.mp hx).2

theorem rsSeedDown_nonneg (prices : List ℚ) (periods : ℕ) :
    0 ≤ rsSeedDown prices periods := by
  unfold rsSeedDown
  apply div_nonneg _ (Nat.cast_nonneg periods)
  have h1 : 0 ≤ ((((rsDiff prices).take (periods + 1)).filter
      (fun d => decide (d < 0))).map (fun d => -d)).sum := by
    apply List.sum_nonneg
    intro x hx
    obtain ⟨y, hy, rfl⟩ := List.mem_map.mp hx
    have hneg : y < 0 := of_decide_eq_true (List.mem_filter.mp hy).2
    linarith
  rw [sum_map_neg_q] at h1
  exact h1

theorem rsVal_bounds (up down : ℚ) (hu : 0 ≤ up) (hd : 0 ≤ down) :
    0 ≤ rsVal up down ∧ rsVal up down ≤ 100 := by
  have hr : 0 ≤ up / down := div_nonneg hu hd
  have h1 : (0 : ℚ) < 1 + up / down := by linarith
  have h2 : 100 / (1 + up / down) ≤ 100 := by
    rw [div_le_iff₀ h1]
    nlinarith
  have h3 : 0 < 100 / (1 + up / down) := by positivity
  unfold rsVal
  constructor <;> linarith

theorem rsStateDiv_nonneg (periods : ℕ) (hp : 1 ≤ periods) (u v : ℚ)
    (hu : 0 ≤ u) (hv : 0 ≤ v) :
    0 ≤ (u * ((periods : ℚ) - 1) + v) / (periods : ℚ) := by
  apply div_nonneg _ (Nat.cast_nonneg periods)
  have hc : (1 : ℚ) ≤ (periods : ℚ) := by exact_mod_cast hp
  nlinarith

theorem rsTail_bounds (periods : ℕ) (hp : 1 ≤ periods) :
    ∀ (ds : List ℚ) (up down : ℚ), 0 ≤ up → 0 ≤ down →
    ∀ x ∈ rsTail periods up down ds, 0 ≤ x ∧ x ≤ 100 := by
  intro ds
  induction ds with
  | nil =>
    intro up down _ _ x hx
    simp [rsTail] at hx
  | cons d t ih =>
    intro up down hu hd x hx
    have hupval : 0 ≤ (if 0 < d then d else (0 : ℚ)) := by
      split_ifs with h
      · exact le_of_lt h
      · exact le_refl 0
    have hdownval : 0 ≤ (if 0 < d then (0 : ℚ) else -d) := by
      split_ifs with h
      · exact le_refl 0
      · linarith [not_lt.mp h]
    have hu2 := rsStateDiv_nonneg periods hp up (if 0 < d then d else 0) hu hupval
    have hd2 := rsStateDiv_nonneg periods hp down (if 0 < d then 0 else -d) hd hdownval
    simp only [rsTail, List.mem_cons] at hx
    rcases hx with rfl | hx
    · exact rsVal_bounds _ _ hu2 hd2
    · exact ih _ _ hu2 hd2 x hx

/-- Claim C6, confirmed: every value of `relative_strength(prices,
periods)` lies in `[0, 100]`, for every price series and every `periods
≥ 1`.  The seed `up`/`down` are nonnegative, the Wilder update keeps
them nonnegative, and `100 - 100/(1 + up/down)` with a nonnegative ratio
always lies in `[0, 100]`.  (In IEEE-float semantics the degenerate case
`up = down = 0` — a constant warm-up window — yields NaN instead; the
claim's "non-degenerate" proviso excludes it, and the exact-arithmetic
model, whose division by zero yields 0, stays inside the bounds there
too.) -/
theorem claim_C6 (prices : List ℚ) (periods : ℕ) (hp : 1 ≤ periods) :
    ∀ x ∈ relative_strength prices periods, 0 ≤ x ∧ x ≤ 100 := by
  intro x hx
  unfold relative_strength at hx
  rcases List.mem_append.mp hx with h | h
  · rw [List.eq_of_mem_replicate h]
    exact rsVal_bounds _ _ (rsSeedUp_nonneg prices periods)
      (rsSeedDown_nonneg prices periods)
  · exact rsTail_bounds periods hp _ _ _ (rsSeedUp_nonneg prices periods)
      (rsSeedDown_nonneg prices periods) x h

/-- Claim C6, witness: the theorem applied at `prices = [5, 4, 6, 3]`,
`periods = 2` (a series with both rising and falling deltas). -/
theorem claim_C6_witness :
    1 ≤ 2 ∧ ∀ x ∈ relative_strength [5, 4, 6, 3] 2, 0 ≤ x ∧ x ≤ 100 :=
  ⟨by decide, claim_C6 [5, 4, 6, 3] 2 (by decide)⟩

theorem qstk_replicate_pinf (c rf : ℝ) (h : rf < c * 252) :
    qstk_get_sharpe (List.replicate 252 c) rf = NpVal.pinf := by
  have hmean : npMean (List.replicate 252 c) = c := by
    unfold npMean
    rw [List.sum_replicate, List.length_replicate, nsmul_eq_mul, mul_comm,
      mul_div_assoc]
    norm_num
  have hstd : npStd (List.replicate 252 c) = 0 := by
    unfold npStd
    rw [hmean]
    have hmap : (List.replicate 252 c).map (fun x => (x - c) ^ 2)
        = List.replicate 252 0 := by
      rw [List.map_replicate]
      simp
    rw [hmap, List.sum_replicate, smul_zero, zero_div, Real.sqrt_zero]
  unfold qstk_get_sharpe
  rw [hmean, hstd, zero_mul]
  unfold npDiv
  rw [if_pos rfl, if_pos (by linarith)]

/-- Claim C7, amended: a zero-standard-deviation return series does NOT
surface as a typed failure: numpy float division by zero only warns, and
`qstk_get_sharpe_ratio` silently returns `+inf` whenever the
(constant-series) numerator `mean*252 - risk_free` is positive — here
stated for every constant positive daily return replicated over 252
days with zero risk-free rate. -/
theorem claim_C7 (c : ℝ) (hc : 0 < c) :
    qstk_get_sharpe (List.replicate 252 c) 0 = NpVal.pinf :=
  qstk_replicate_pinf c 0 (by nlinarith)

/-- Claim C7, witness: the amended theorem applied at `c = 1`. -/
theorem claim_C7_witness :
    (0 : ℝ) < 1 ∧ qstk_get_sharpe (List.replicate 252 (1 : ℝ)) 0 = NpVal.pinf :=
  ⟨zero_lt_one, claim_C7 1 zero_lt_one⟩

/-- Claim C7, counterexample: at the claim's own concrete scenario
`qstk_get_sharpe_ratio([0.01]*252, 0)` the source returns the value
`+inf` (numerator `2.52 > 0`, denominator `0 * sqrt(252) = 0`), i.e. a
silently produced infinity rather than any typed domain failure. -/
theorem counterexample_C7 :
    qstk_get_sharpe (List.replicate 252 ((1 : ℝ) / 100)) 0 = NpVal.pinf :=
  qstk_replicate_pinf ((1 : ℝ) / 100) 0 (by norm_num)

section ConvolutionLemmas

variable {α : Type} [Field α]

theorem normalizeW_length (w : List α) : (normalizeW w).length = w.length := by
  simp [normalizeW]

theorem convList_length (a v : List α) :
    (convList a v).length = a.length + v.length - 1 := by
  simp [convList]

theorem maBody_eq_some (data w : List α) (periods : ℕ)
    (hw : 1 ≤ w.length) (hp : periods < data.length) :
    maBody data w periods
      = some (List.replicate periods
            (((convList data (normalizeW w)).take data.length).getD periods 0)
          ++ ((convList data (normalizeW w)).take data.length).drop periods) := by
  have hd : ¬data.length = 0 := by omega
  have hwn : ¬(normalizeW w).length = 0 := by rw [normalizeW_length]; omega
  have hconv : np_convolve data (normalizeW w)
      = some (convList data (normalizeW w)) := by
    unfold np_convolve
    rw [if_neg]
    push_neg
    exact ⟨hd, hwn⟩
  have htl : ((convList data (normalizeW w)).take data.length).length
      = data.length := by
    rw [List.length_take, convList_length, normalizeW_length]
    omega
  have h1 : periods < ((convList data (normalizeW w)).take data.length).length := by
    rw [htl]
    exact hp
  have hget : ((convList data (normalizeW w)).take data.length)[periods]?
      = some (((convList data (normalizeW w)).take data.length).getD periods 0) := by
    rw [List.getElem?_eq_getElem h1, List.getD_eq_getElem _ _ h1]
  unfold maBody
  rw [hconv, Option.some_bind, hget, Option.map_some']

theorem maBody_out_spec (data w : List α) (periods : ℕ)
    (hw : 1 ≤ w.length) (hp : periods < data.length) :
    (maBody data w periods).isSome = true
    ∧ ((maBody data w periods).getD []).length = data.length
    ∧ ∀ i < periods, ((maBody data w periods).getD [])[i]?
        = ((maBody data w periods).getD [])[periods]? := by
  have heq := maBody_eq_some data w periods hw hp
  have htl : ((convList data (normalizeW w)).take data.length).length
      = data.length := by
    rw [List.length_take, convList_length, normalizeW_length]
    omega
  have h1 : periods < ((convList data (normalizeW w)).take data.length).length := by
    rw [htl]
    exact hp
  rw [heq]
  refine ⟨rfl, ?_, ?_⟩
  · rw [Option.getD_some, List.length_append, List.length_replicate,
      List.length_drop, htl]
    omega
  · intro i hi
    rw [Option.getD_some]
    rw [List.getElem?_append_left
        (by rw [List.length_replicate]; exact hi),
      List.getElem?_append_right
        (by rw [List.length_replicate])]
    rw [List.getElem?_replicate, if_pos hi, List.length_replicate, Nat.sub_self,
      List.getElem?_drop, Nat.add_zero, List.getElem?_eq_getElem h1,
      List.getD_eq_getElem _ _ h1]

end ConvolutionLemmas

theorem maKernel_length (kind : MAKind) (p : ℕ) : (maKernel kind p).length = p := by
  cases kind <;> simp [maKernel]

/-- Claim C1, counterexample: the claim allows `periods = len(P)`, but
there `mavg[periods]` reads one past the end of the truncated
convolution and raises `IndexError`: at `P = [1]`, `periods = 1`
(which satisfies `1 ≤ periods ≤ len(P)`) the call fails instead of
returning a length-1 series. -/
theorem counterexample_C1 :
    moving_average [(1 : ℝ)] 1 MAKind.simple = none := by
  have hconv : np_convolve [(1 : ℝ)] (normalizeW (maKernel MAKind.simple 1))
      = some (convList [(1 : ℝ)] (normalizeW (maKernel MAKind.simple 1))) := by
    unfold np_convolve
    rw [if_neg]
    push_neg
    constructor
    · simp
    · rw [normalizeW_length, maKernel_length]
      omega
  have hlen : ((convList [(1 : ℝ)] (normalizeW (maKernel MAKind.simple 1))).take
      [(1 : ℝ)].length).length = 1 := by
    rw [List.length_take, convList_length, normalizeW_length, maKernel_length]
    simp
  unfold moving_average maBody
  rw [hconv, Option.some_bind]
  rw [List.getElem?_eq_none (by rw [hlen])]
  rfl

/-- Claim C1, amended: for `1 ≤ periods ≤ len(P) - 1` (strictly below
`len(P)`; at `periods = len(P)` the source raises `IndexError`, see the
counterexample), `moving_average(P, periods, simple)` returns a series
of length `len(P)` whose positions `0 .. periods-1` all hold the value
at position `periods` (the flat bootstrap fill). -/
theorem claim_C1 (data : List ℝ) (periods i : ℕ) (h1 : 1 ≤ periods)
    (h2 : periods < data.length) (hi : i < periods) :
    (moving_average data periods MAKind.simple).isSome = true
    ∧ ((moving_average data periods MAKind.simple).getD []).length = data.length
    ∧ ((moving_average data periods MAKind.simple).getD [])[i]?
        = ((moving_average data periods MAKind.simple).getD [])[periods]? := by
  have hw : 1 ≤ (maKernel MAKind.simple periods).length := by
    rw [maKernel_length]
    exact h1
  have hspec := maBody_out_spec data (maKernel MAKind.simple periods) periods hw h2
  have hdef : moving_average data periods MAKind.simple
      = maBody data (maKernel MAKind.simple periods) periods := rfl
  rw [hdef]
  exact ⟨hspec.1, hspec.2.1, hspec.2.2 i hi⟩

/-- Claim C1, witness: the amended theorem applied at
`data = [1, 2, 3, 4]`, `periods = 2`, `i = 0`. -/
theorem claim_C1_witness :
    1 ≤ 2 ∧ 2 < [(1 : ℝ), 2, 3, 4].length ∧ 0 < 2
    ∧ ((moving_average [(1 : ℝ), 2, 3, 4] 2 MAKind.simple).isSome = true
      ∧ ((moving_average [(1 : ℝ), 2, 3, 4] 2 MAKind.simple).getD []).length
          = [(1 : ℝ), 2, 3, 4].length
      ∧ ((moving_average [(1 : ℝ), 2, 3, 4] 2 MAKind.simple).getD [])[0]?
          = ((moving_average [(1 : ℝ), 2, 3, 4] 2 MAKind.simple).getD [])[2]?) :=
  ⟨by decide, by decide, by decide,
    claim_C1 [(1 : ℝ), 2, 3, 4] 2 0 (by decide) (by decide) (by decide)⟩

/-- Claim C4, confirmed: for valid windows (`1 ≤ nslow, nfast <
len(prices)`), `moving_average_convergence` returns exactly the triple
`(S, F, F - S)` with `S`/`F` the exponential moving averages for
`nslow`/`nfast`, all three series of length `len(prices)`, and the
divergence equal to fast minus slow pointwise at every index. -/
theorem claim_C4 (data : List ℝ) (nslow nfast i : ℕ)
    (hs1 : 1 ≤ nslow) (hs2 : nslow < data.length)
    (hf1 : 1 ≤ nfast) (hf2 : nfast < data.length) (hi : i < data.length) :
    moving_average_convergence data nslow nfast
      = some ((moving_average data nslow MAKind.exponential).getD [],
          (moving_average data nfast MAKind.exponential).getD [],
          List.zipWith (fun a b => a - b)
            ((moving_average data nfast MAKind.exponential).getD [])
            ((moving_average data nslow MAKind.exponential).getD []))
    ∧ ((moving_average data nslow MAKind.exponential).getD []).length = data.length
    ∧ ((moving_average data nfast MAKind.exponential).getD []).length = data.length
    ∧ (List.zipWith (fun a b => a - b)
        ((moving_average data nfast MAKind.exponential).getD [])
        ((moving_average data nslow MAKind.exponential).getD [])).length
      = data.length
    ∧ (List.zipWith (fun a b => a - b)
        ((moving_average data nfast MAKind.exponential).getD [])
        ((moving_average data nslow MAKind.exponential).getD []))[i]?
      = some (((moving_average data nfast MAKind.exponential).getD []).getD i 0
          - ((moving_average data nslow MAKind.exponential).getD []).getD i 0) := by
  have hks : 1 ≤ (maKernel MAKind.exponential nslow).length := by
    rw [maKernel_length]
    exact hs1
  have hkf : 1 ≤ (maKernel MAKind.exponential nfast).length := by
    rw [maKernel_length]
    exact hf1
  have hdefs : moving_average data nslow MAKind.exponential
      = maBody data (maKernel MAKind.exponential nslow) nslow := rfl
  have hdeff : moving_average data nfast MAKind.exponential
      = maBody data (maKernel MAKind.exponential nfast) nfast := rfl
  have hspecS := maBody_out_spec data (maKernel MAKind.exponential nslow) nslow hks hs2
  have hspecF := maBody_out_spec data (maKernel MAKind.exponential nfast) nfast hkf hf2
  obtain ⟨S, hS⟩ := Option.isSome_iff_exists.mp hspecS.1
  obtain ⟨F, hF⟩ := Option.isSome_iff_exists.mp hspecF.1
  have hSd : (moving_average data nslow MAKind.exponential).getD [] = S := by
    rw [hdefs, hS, Option.getD_some]
  have hFd : (moving_average data nfast MAKind.exponential).getD [] = F := by
    rw [hdeff, hF, Option.getD_some]
  have hSlen : S.length = data.length := by
    rw [← hSd]
    exact (maBody_out_spec data (maKernel MAKind.exponential nslow) nslow hks hs2).2.1
  have hFlen : F.length = data.length := by
    rw [← hFd]
    exact (maBody_out_spec data (maKernel MAKind.exponential nfast) nfast hkf hf2).2.1
  have hzlen : (List.zipWith (fun a b => a - b) F S).length = data.length := by
    rw [List.length_zipWith, hSlen, hFlen]
    omega
  have hzi : i < (List.zipWith (fun a b => a - b) F S).length := by
    rw [hzlen]
    exact hi
  refine ⟨?_, ?_, ?_, ?_, ?_⟩
  · unfold moving_average_convergence
    rw [hdefs, hdeff] at *
    rw [hS, hF, Option.some_bind, Option.map_some']
    simp only [Option.getD_some]
  · rw [hSd]
    exact hSlen
  · rw [hFd]
    exact hFlen
  · rw [hSd, hFd]
    exact hzlen
  · rw [hSd, hFd, List.getElem?_eq_getElem hzi, List.getElem_zipWith]
    have hiF : i < F.length := by rw [hFlen]; exact hi
    have hiS : i < S.length := by rw [hSlen]; exact hi
    rw [List.getD_eq_getElem F 0 hiF, List.getD_eq_getElem S 0 hiS]

/-- Claim C4, witness: the theorem applied at `data = [1, 2, 3, 4]`,
`nslow = 3`, `nfast = 2`, `i = 1`. -/
theorem claim_C4_witness :
    1 ≤ 3 ∧ 3 < [(1 : ℝ), 2, 3, 4].length ∧ 1 ≤ 2 ∧ 2 < [(1 : ℝ), 2, 3, 4].length
    ∧ 1 < [(1 : ℝ), 2, 3, 4].length
    ∧ (moving_average_convergence [(1 : ℝ), 2, 3, 4] 3 2
        = some ((moving_average [(1 : ℝ), 2, 3, 4] 3 MAKind.exponential).getD [],
            (moving_average [(1 : ℝ), 2, 3, 4] 2 MAKind.exponential).getD [],
            List.zipWith (fun a b => a - b)
              ((moving_average [(1 : ℝ), 2, 3, 4] 2 MAKind.exponential).getD [])
              ((moving_average [(1 : ℝ), 2, 3, 4] 3 MAKind.exponential).getD []))
      ∧ ((moving_average [(1 : ℝ), 2, 3, 4] 3 MAKind.exponential).getD []).length
          = [(1 : ℝ), 2, 3, 4].length
      ∧ ((moving_average [(1 : ℝ), 2, 3, 4] 2 MAKind.exponential).getD []).length
          = [(1 : ℝ), 2, 3, 4].length
      ∧ (List.zipWith (fun a b => a - b)
          ((moving_average [(1 : ℝ), 2, 3, 4] 2 MAKind.exponential).getD [])
          ((moving_average [(1 : ℝ), 2, 3, 4] 3 MAKind.exponential).getD [])).length
        = [(1 : ℝ), 2, 3, 4].length
      ∧ (List.zipWith (fun a b => a - b)
          ((moving_average [(1 : ℝ), 2, 3, 4] 2 MAKind.exponential).getD [])
          ((moving_average [(1 : ℝ), 2, 3, 4] 3 MAKind.exponential).getD []))[1]?
        = some (((moving_average [(1 : ℝ), 2, 3, 4] 2 MAKind.exponential).getD []).getD 1 0
            - ((moving_average [(1 : ℝ), 2, 3, 4] 3 MAKind.exponential).getD []).getD 1 0)) :=
  ⟨by decide, by decide, by decide, by decide, by decide,
    claim_C4 [(1 : ℝ), 2, 3, 4] 3 2 1 (by decide) (by decide) (by decide)
      (by decide) (by decide)⟩

theorem convEntry_lag {α : Type} [Field α] (a W : List α) (n : ℕ) :
    convEntry a W n
      = ∑ l ∈ Finset.range W.length,
          (if l ≤ n then a.getD (n - l) 0 else 0) * W.getD l 0 := by
  unfold convEntry
  have hrefl := Finset.sum_range_reflect
      (fun m => a.getD m 0 * W.getD (n - m) 0) (n + 1)
  simp only [Nat.add_sub_cancel] at hrefl
  rw [← hrefl]
  have hstep1 : ∑ l ∈ Finset.range (n + 1),
      a.getD (n - l) 0 * W.getD (n - (n - l)) 0
      = ∑ l ∈ Finset.range (n + 1),
        (if l ≤ n then a.getD (n - l) 0 else 0) * W.getD l 0 := by
    apply Finset.sum_congr rfl
    intro l hl
    have hln : l ≤ n := by
      have := Finset.mem_range.mp hl
      omega
    rw [Nat.sub_sub_self hln, if_pos hln]
  rw [hstep1]
  have h1 : ∑ l ∈ Finset.range (n + 1),
      (if l ≤ n then a.getD (n - l) 0 else 0) * W.getD l 0
      = ∑ l ∈ Finset.range (max (n + 1) W.length),
        (if l ≤ n then a.getD (n - l) 0 else 0) * W.getD l 0 := by
    apply Finset.sum_subset (Finset.range_subset.mpr (le_max_left _ _))
    intro x _ hx
    simp only [Finset.mem_range, not_lt] at hx
    rw [if_neg (by omega), zero_mul]
  have h2 : ∑ l ∈ Finset.range W.length,
      (if l ≤ n then a.getD (n - l) 0 else 0) * W.getD l 0
      = ∑ l ∈ Finset.range (max (n + 1) W.length),
        (if l ≤ n then a.getD (n - l) 0 else 0) * W.getD l 0 := by
    apply Finset.sum_subset (Finset.range_subset.mpr (le_max_right _ _))
    intro x _ hx
    simp only [Finset.mem_range, not_lt] at hx
    rw [List.getD_eq_default _ _ hx, mul_zero]
  rw [h1, h2]

theorem maKernelExp_getElem (p l : ℕ) (hl : l < (maKernel MAKind.exponential p).length) :
    (maKernel MAKind.exponential p)[l] = Real.exp (emaLin p l) := by
  simp [maKernel]

theorem normEmaKernel_getD (p l : ℕ) (hl : l < p) :
    (normalizeW (maKernel MAKind.exponential p)).getD l 0
      = Real.exp (emaLin p l) / (maKernel MAKind.exponential p).sum := by
  have hlen : l < (normalizeW (maKernel MAKind.exponential p)).length := by
    rw [normalizeW_length, maKernel_length]
    exact hl
  have hlen2 : l < (maKernel MAKind.exponential p).length := by
    rw [maKernel_length]
    exact hl
  rw [List.getD_eq_getElem _ _ hlen]
  unfold normalizeW
  rw [List.getElem_map]
  rw [maKernelExp_getElem p l hlen2]

theorem maKernelExp_sum_pos (p : ℕ) (hp : 1 ≤ p) :
    0 < (maKernel MAKind.exponential p).sum := by
  apply List.sum_pos
  · intro x hx
    simp only [maKernel, List.mem_map] at hx
    obtain ⟨k, _, rfl⟩ := hx
    exact Real.exp_pos _
  · intro hnil
    have h2 : (List.range p).map (fun k => Real.exp (emaLin p k)) = [] := hnil
    rw [List.map_eq_nil_iff, List.range_eq_nil] at h2
    omega

theorem emaLin_lt (p j j' : ℕ) (hp : 2 ≤ p) (hjj : j < j') :
    emaLin p j < emaLin p j' := by
  unfold emaLin
  have hden : (0 : ℝ) < (p : ℝ) - 1 := by
    have h2 : (2 : ℝ) ≤ (p : ℝ) := by exact_mod_cast hp
    linarith
  have hnum : (j : ℝ) < (j' : ℝ) := by exact_mod_cast hjj
  have hdiv : (j : ℝ) / ((p : ℝ) - 1) < (j' : ℝ) / ((p : ℝ) - 1) :=
    div_lt_div_of_pos_right hnum hden
  linarith

/-- Claim C9, confirmed: for the exponential kind with `periods ≥ 2`,
each convolution entry decomposes over lags as
`Σ_l data[n-l] * W[l]` (numpy's `convolve` pairs the sample at lag `l`
with kernel slot `l` — the kernel is applied reversed relative to a
sliding dot product); the normalised weight at lag `l` equals
`exp(-1 + l/(periods-1))` divided by the (positive) kernel sum, i.e. it
is proportional to `exp(-1 + l/(periods-1))`; and that weight is
strictly increasing in the lag, so the oldest in-window sample (lag
`periods-1`) carries the largest weight and the current sample (lag 0)
the smallest. -/
theorem claim_C9 (data : List ℝ) (p n j j' : ℕ) (hp : 2 ≤ p) (hjj : j < j')
    (hj' : j' < p) :
    convEntry data (normalizeW (maKernel MAKind.exponential p)) n
      = ∑ l ∈ Finset.range p, (if l ≤ n then data.getD (n - l) 0 else 0)
          * (normalizeW (maKernel MAKind.exponential p)).getD l 0
    ∧ (normalizeW (maKernel MAKind.exponential p)).getD j 0
        = Real.exp (emaLin p j) / (maKernel MAKind.exponential p).sum
    ∧ 0 < (maKernel MAKind.exponential p).sum
    ∧ (normalizeW (maKernel MAKind.exponential p)).getD j 0
        < (normalizeW (maKernel MAKind.exponential p)).getD j' 0 := by
  have hj : j < p := lt_trans hjj hj'
  have hsum := maKernelExp_sum_pos p (by omega)
  refine ⟨?_, normEmaKernel_getD p j hj, hsum, ?_⟩
  · have h := convEntry_lag data (normalizeW (maKernel MAKind.exponential p)) n
    rw [normalizeW_length, maKernel_length] at h
    exact h
  · rw [normEmaKernel_getD p j hj, normEmaKernel_getD p j' hj']
    exact div_lt_div_of_pos_right
      (Real.exp_lt_exp.mpr (emaLin_lt p j j' hp hjj)) hsum

/-- Claim C9, witness: the theorem applied at `data = [1, 2]`, `p = 2`,
`n = 1`, `j = 0`, `j' = 1`. -/
theorem claim_C9_witness :
    2 ≤ 2 ∧ 0 < 1 ∧ 1 < 2
    ∧ (convEntry [(1 : ℝ), 2] (normalizeW (maKernel MAKind.exponential 2)) 1
        = ∑ l ∈ Finset.range 2, (if l ≤ 1 then [(1 : ℝ), 2].getD (1 - l) 0 else 0)
            * (normalizeW (maKernel MAKind.exponential 2)).getD l 0
      ∧ (normalizeW (maKernel MAKind.exponential 2)).getD 0 0
          = Real.exp (emaLin 2 0) / (maKernel MAKind.exponential 2).sum
      ∧ 0 < (maKernel MAKind.exponential 2).sum
      ∧ (normalizeW (maKernel MAKind.exponential 2)).getD 0 0
          < (normalizeW (maKernel MAKind.exponential 2)).getD 1 0) :=
  ⟨by decide, by decide, by decide,
    claim_C9 [(1 : ℝ), 2] 2 1 0 1 (by decide) (by decide) (by decide)⟩
